import Mathlib

/-!
Verification of the connect-go-errors runtime core: the `{{field}}` message
template engine, the error registry, the Connect error constructors, and the
narrow protobuf wire decoder used by the code generator.

Strings are embedded as `List Char` (Go strings are byte sequences; all the
characters relevant to matching — braces and word characters — are ASCII, and
lexicographic comparison of UTF-8 byte sequences agrees with lexicographic
comparison of the character sequences).  Go maps `map[string]string` are
embedded as association lists with unique keys; `lookupM` is Go's map read.

Recursions that Go drives by an advancing string index are written with an
explicit fuel argument equal to the string length, so every definition is a
plain structural recursion that the kernel can evaluate; fuel-irrelevance
lemmas recover the intended semantics.
-/

namespace ConnectGoErrors

/-- Association-list embedding of Go's `type M map[string]string`. -/
abbrev M : Type := List (List Char × List Char)

/-- Go map read `v, ok := data[k]` (keys of a Go map are unique, so the
first binding is the binding). -/
def lookupM : List (List Char × List Char) → List Char → Option (List Char)
  | [], _ => none
  | (k, v) :: rest, key => if k = key then some v else lookupM rest key

/-- One character of Go's regexp class `\w`, which is ASCII
`[0-9A-Za-z_]`. -/
def isWordChar (c : Char) : Bool := c.isAlpha || c.isDigit || c = '_'

/-- A match attempt of the regexp `\x7b\x7b(\w+)\x7d\x7d` anchored at the head
of `s`: two opening braces, a maximal nonempty run of word characters, two
closing braces.  Returns the captured field name and the remainder after the
match.  (Maximality is forced: a shorter word run would be followed by a word
character, never by a closing brace, so the anchored match is unique.)  `closeBraces` is the tail of the match: after the word
run `w`, demand two closing braces and that the run was nonempty. -/
def closeBraces (w : List Char) : List Char → Option (List Char × List Char)
  | d1 :: d2 :: rest2 =>
    if d1 = '\x7d' ∧ d2 = '\x7d' ∧ w ≠ [] then some (w, rest2) else none
  | _ => none

/-- See `closeBraces`: the anchored regexp match. -/
def matchPlaceholder : List Char → Option (List Char × List Char)
  | c1 :: c2 :: rest =>
    if c1 = '\x7b' ∧ c2 = '\x7b' then
      closeBraces (rest.takeWhile isWordChar) (rest.dropWhile isWordChar)
    else none
  | _ => none

/-- A segment of a parsed template: Go's `templatePart` struct.  `field = []`
plays the role of Go's empty `field` string (a pure literal part). -/
structure templatePart where
  literal : List Char
  field : List Char
deriving DecidableEq

/-- The scanning loop shared by Go's `regexp.FindAllStringSubmatchIndex`
and the part-building loop of `parseTemplateParts`: walk the template left to
right, at each position try the anchored placeholder match, emit a part per
match (its `literal` is the text since the previous match), and resume after
the matched text.  `pending` holds the literal characters accumulated since
the last match, in reverse.  `fuel ≥ s.length` makes the recursion
structural. -/
def scanParts (fuel : Nat) (pending s : List Char) : List templatePart :=
  match fuel, s with
  | _, [] => if pending = [] then [] else [⟨pending.reverse, []⟩]
  | 0, _ => []
  | fuel + 1, c :: cs =>
    match matchPlaceholder (c :: cs) with
    | some (w, rest) => ⟨pending.reverse, w⟩ :: scanParts fuel [] rest
    | none => scanParts fuel (c :: pending) cs

/-- Go's `parseTemplateParts`: the matched segments, or a single all-literal
part when the regexp finds no match (including the empty template). -/
def parseTemplateParts (tpl : List Char) : List templatePart :=
  match scanParts tpl.length [] tpl with
  | [] => [⟨[], []⟩]
  | ps => ps

/-- The capture groups of `regexp.FindAllStringSubmatch`, in match order:
the field name of every placeholder occurrence, duplicates included. -/
def fieldScan (fuel : Nat) (s : List Char) : List (List Char) :=
  match fuel, s with
  | _, [] => []
  | 0, _ => []
  | fuel + 1, c :: cs =>
    match matchPlaceholder (c :: cs) with
    | some (w, rest) => w :: fieldScan fuel rest
    | none => fieldScan fuel cs

/-- First-occurrence deduplication, as Go's `seen` map loop in
`TemplateFields`. -/
def dedupFirst (seen : List (List Char)) : List (List Char) → List (List Char)
  | [] => []
  | x :: xs => if x ∈ seen then dedupFirst seen xs else x :: dedupFirst (x :: seen) xs

/-- Go's `sort.Strings`: lexicographic (byte-order) sort. -/
def sortStrings (l : List (List Char)) : List (List Char) :=
  l.insertionSort (· ≤ ·)

/-- Go's `TemplateFields`: unique placeholder field names, sorted. -/
def TemplateFields (tpl : List Char) : List (List Char) :=
  sortStrings (dedupFirst [] (fieldScan tpl.length tpl))

/-- Go's `MissingFieldError` value (the `Error()` rendering is not needed by
the claims). -/
structure MissingFieldError where
  Template : List Char
  Missing : List (List Char)
deriving DecidableEq

/-- Go's `ValidateTemplate`: `none` is Go's `nil` error. -/
def ValidateTemplate (tpl : List Char) (data : M) : Option MissingFieldError :=
  let fields := TemplateFields tpl
  if fields = [] then none
  else
    let missing := fields.filter fun f => lookupM data f = none
    if missing = [] then none else some ⟨tpl, missing⟩

/-- The verbatim text of an unreplaced placeholder, `"\x7b\x7b" + field + "\x7d\x7d"`. -/
def placeholderText (f : List Char) : List Char :=
  '\x7b' :: '\x7b' :: (f ++ '\x7d' :: '\x7d' :: [])

/-- The body of `FormatTemplate`'s per-part loop: the literal, then the data
value when the field is bound, the verbatim placeholder when it is not. -/
def renderPart (data : M) (p : templatePart) : List Char :=
  p.literal ++
    (if p.field = [] then []
     else match lookupM data p.field with
       | some v => v
       | none => placeholderText p.field)

/-- The whole builder loop of `FormatTemplate`. -/
def render (data : M) : List templatePart → List Char
  | [] => []
  | p :: ps => renderPart data p ++ render data ps

/-- Go's `FormatTemplate` (`cachedParts` is observationally
`parseTemplateParts`: the cache stores exactly `parseTemplateParts tpl` under
key `tpl`). -/
def FormatTemplate (tpl : List Char) (data : M) : List Char :=
  if data = ([] : List (List Char × List Char)) then tpl
  else render data (parseTemplateParts tpl)


/-! ### Basic facts about the anchored placeholder match -/

theorem takeWhile_word_block (f : List Char) (hf : ∀ c ∈ f, isWordChar c) (l : List Char) :
    (f ++ '\x7d' :: l).takeWhile isWordChar = f := by
  induction f with
  | nil => simp [List.takeWhile, isWordChar]
  | cons c f ih =>
    have hc : isWordChar c := hf c (by simp)
    simp only [List.cons_append, List.takeWhile_cons, hc, if_true]
    rw [ih fun x hx => hf x (by simp [hx])]

theorem dropWhile_word_block (f : List Char) (hf : ∀ c ∈ f, isWordChar c) (l : List Char) :
    (f ++ '\x7d' :: l).dropWhile isWordChar = '\x7d' :: l := by
  induction f with
  | nil => simp [List.dropWhile, isWordChar]
  | cons c f ih =>
    have hc : isWordChar c := hf c (by simp)
    simp only [List.cons_append, List.dropWhile_cons, hc, if_true]
    exact ih fun x hx => hf x (by simp [hx])

theorem matchPlaceholder_eq_some {s w rest : List Char}
    (h : matchPlaceholder s = some (w, rest)) :
    s = '\x7b' :: '\x7b' :: (w ++ '\x7d' :: '\x7d' :: rest) ∧ w ≠ [] ∧
      ∀ c ∈ w, isWordChar c := by
  match s with
  | [] => simp [matchPlaceholder] at h
  | [c1] => simp [matchPlaceholder] at h
  | c1 :: c2 :: r =>
    simp only [matchPlaceholder] at h
    by_cases h12 : c1 = '\x7b' ∧ c2 = '\x7b'
    · rw [if_pos h12] at h
      match hd : r.dropWhile isWordChar with
      | [] => rw [hd] at h; simp [closeBraces] at h
      | [d1] => rw [hd] at h; simp [closeBraces] at h
      | d1 :: d2 :: rest2 =>
        rw [hd] at h
        simp only [closeBraces] at h
        by_cases hdd : d1 = '\x7d' ∧ d2 = '\x7d' ∧ r.takeWhile isWordChar ≠ []
        · rw [if_pos hdd] at h
          have hp := Option.some.inj h
          have hw : List.takeWhile isWordChar r = w := congrArg Prod.fst hp
          have hr : rest2 = rest := congrArg Prod.snd hp
          obtain ⟨hd1, hd2, hne⟩ := hdd
          subst hw; subst hr
          refine ⟨?_, hne, fun c hc => List.mem_takeWhile_imp hc⟩
          rw [h12.1, h12.2]
          conv_lhs => rw [← List.takeWhile_append_dropWhile (p := isWordChar) (l := r)]
          rw [hd, hd1, hd2]
        · rw [if_neg hdd] at h; simp at h
    · rw [if_neg h12] at h; simp at h

theorem matchPlaceholder_of_block {f post : List Char} (hne : f ≠ [])
    (hf : ∀ c ∈ f, isWordChar c) :
    matchPlaceholder ('\x7b' :: '\x7b' :: (f ++ '\x7d' :: '\x7d' :: post)) =
      some (f, post) := by
  have h1 : matchPlaceholder ('\x7b' :: '\x7b' :: (f ++ '\x7d' :: '\x7d' :: post))
      = closeBraces ((f ++ '\x7d' :: '\x7d' :: post).takeWhile isWordChar)
          ((f ++ '\x7d' :: '\x7d' :: post).dropWhile isWordChar) := by
    simp [matchPlaceholder]
  rw [h1, takeWhile_word_block f hf ('\x7d' :: post),
    dropWhile_word_block f hf ('\x7d' :: post)]
  simp [closeBraces, hne]

theorem matchPlaceholder_length {s w rest : List Char}
    (h : matchPlaceholder s = some (w, rest)) : rest.length < s.length := by
  obtain ⟨hs, -, -⟩ := matchPlaceholder_eq_some h
  subst hs; simp; omega

/-! ### The scan with fuel at least the string length is fuel-independent -/

theorem scanParts_fuel : ∀ (f1 f2 : Nat) (pending s : List Char), s.length ≤ f1 →
    s.length ≤ f2 → scanParts f1 pending s = scanParts f2 pending s := by
  intro f1
  induction f1 with
  | zero =>
    intro f2 pending s h1 h2
    have hs : s = [] := List.eq_nil_of_length_eq_zero (Nat.le_zero.mp h1)
    subst hs
    cases f2 <;> rfl
  | succ f1 ih =>
    intro f2 pending s h1 h2
    match s with
    | [] => cases f2 <;> rfl
    | c :: cs =>
      cases f2 with
      | zero => simp at h2
      | succ g =>
        simp only [scanParts]
        cases hm : matchPlaceholder (c :: cs) with
        | none =>
          simp only [hm]
          exact ih g (c :: pending) cs (by simp only [List.length_cons] at h1; omega)
            (by simp only [List.length_cons] at h2; omega)
        | some p =>
          obtain ⟨w, rest⟩ := p
          have hlen := matchPlaceholder_length hm
          simp only [hm]
          rw [ih g [] rest (by simp only [List.length_cons] at h1 hlen; omega)
            (by simp only [List.length_cons] at h2 hlen; omega)]

theorem fieldScan_fuel : ∀ (f1 f2 : Nat) (s : List Char), s.length ≤ f1 →
    s.length ≤ f2 → fieldScan f1 s = fieldScan f2 s := by
  intro f1
  induction f1 with
  | zero =>
    intro f2 s h1 h2
    have hs : s = [] := List.eq_nil_of_length_eq_zero (Nat.le_zero.mp h1)
    subst hs
    cases f2 <;> rfl
  | succ f1 ih =>
    intro f2 s h1 h2
    match s with
    | [] => cases f2 <;> rfl
    | c :: cs =>
      cases f2 with
      | zero => simp at h2
      | succ g =>
        simp only [fieldScan]
        cases hm : matchPlaceholder (c :: cs) with
        | none =>
          simp only [hm]
          exact ih g cs (by simp only [List.length_cons] at h1; omega)
            (by simp only [List.length_cons] at h2; omega)
        | some p =>
          obtain ⟨w, rest⟩ := p
          have hlen := matchPlaceholder_length hm
          simp only [hm]
          rw [ih g rest (by simp only [List.length_cons] at h1 hlen; omega)
            (by simp only [List.length_cons] at h2 hlen; omega)]

/-! ### Reassembly: the parsed segments concatenate back to the template -/

/-- Concatenate, in order, each segment's literal followed by the verbatim
`\x7b\x7bfield\x7d\x7d` text of segments with a non-empty field. -/
def renderVerbatim : List templatePart → List Char
  | [] => []
  | p :: ps =>
    p.literal ++ (if p.field = [] then [] else placeholderText p.field) ++ renderVerbatim ps

theorem scanParts_reassemble : ∀ (fuel : Nat) (pending s : List Char), s.length ≤ fuel →
    renderVerbatim (scanParts fuel pending s) = pending.reverse ++ s := by
  intro fuel
  induction fuel with
  | zero =>
    intro pending s h
    have hs : s = [] := List.eq_nil_of_length_eq_zero (Nat.le_zero.mp h)
    subst hs
    by_cases hp : pending = [] <;> simp [scanParts, renderVerbatim, hp]
  | succ fuel ih =>
    intro pending s h
    match s with
    | [] => by_cases hp : pending = [] <;> simp [scanParts, renderVerbatim, hp]
    | c :: cs =>
      simp only [scanParts]
      cases hm : matchPlaceholder (c :: cs) with
      | none =>
        simp only [hm]
        rw [ih (c :: pending) cs (by simp at h; omega)]
        simp
      | some p =>
        obtain ⟨w, rest⟩ := p
        obtain ⟨hs, hne, -⟩ := matchPlaceholder_eq_some hm
        have hlen := matchPlaceholder_length hm
        simp only [hm, renderVerbatim, if_neg hne]
        rw [ih [] rest (by simp at h hlen; omega)]
        rw [hs]
        simp [placeholderText]

theorem parseTemplateParts_reassemble (tpl : List Char) :
    renderVerbatim (parseTemplateParts tpl) = tpl := by
  have h := scanParts_reassemble tpl.length [] tpl le_rfl
  simp only [List.reverse_nil, List.nil_append] at h
  unfold parseTemplateParts
  cases hsc : scanParts tpl.length [] tpl with
  | nil =>
    rw [hsc] at h
    simp only [renderVerbatim] at h
    simp [renderVerbatim, placeholderText, ← h]
  | cons p ps =>
    rw [hsc] at h
    simpa using h

/-! ### The field names of the parsed segments are the scan's capture list -/

/-- The non-empty field names of a segment list, in order. -/
def partFields : List templatePart → List (List Char)
  | [] => []
  | p :: ps => (if p.field = [] then [] else [p.field]) ++ partFields ps

theorem partFields_scanParts : ∀ (fuel : Nat) (pending s : List Char),
    partFields (scanParts fuel pending s) = fieldScan fuel s := by
  intro fuel
  induction fuel with
  | zero =>
    intro pending s
    match s with
    | [] => by_cases hp : pending = [] <;> simp [scanParts, fieldScan, partFields, hp]
    | c :: cs => simp [scanParts, fieldScan, partFields]
  | succ fuel ih =>
    intro pending s
    match s with
    | [] => by_cases hp : pending = [] <;> simp [scanParts, fieldScan, partFields, hp]
    | c :: cs =>
      simp only [scanParts, fieldScan]
      cases hm : matchPlaceholder (c :: cs) with
      | none => simp only [hm]; exact ih (c :: pending) cs
      | some p =>
        obtain ⟨w, rest⟩ := p
        obtain ⟨-, hne, -⟩ := matchPlaceholder_eq_some hm
        simp only [hm, partFields, if_neg hne]
        rw [ih [] rest]
        simp

theorem partFields_parse (tpl : List Char) :
    partFields (parseTemplateParts tpl) = fieldScan tpl.length tpl := by
  unfold parseTemplateParts
  cases hsc : scanParts tpl.length [] tpl with
  | nil =>
    have h := partFields_scanParts tpl.length [] tpl
    rw [hsc] at h
    simpa [partFields] using h.symm.trans rfl |>.symm
  | cons p ps =>
    have h := partFields_scanParts tpl.length [] tpl
    rw [hsc] at h
    simpa using h

/-! ### Association-list (Go map) lemmas -/

theorem lookupM_eq_none_iff (data : M) (k : List Char) :
    lookupM data k = none ↔ k ∉ data.map Prod.fst := by
  induction data with
  | nil => simp [lookupM]
  | cons kv rest ih =>
    obtain ⟨k1, v1⟩ := kv
    by_cases hk : k1 = k
    · subst hk; simp [lookupM]
    · simp only [lookupM, if_neg hk, List.map_cons, List.mem_cons, not_or, ih]
      exact ⟨fun h => ⟨fun he => hk he.symm, h⟩, And.right⟩

theorem lookupM_eq_some_mem {data : M} {k v : List Char} (h : lookupM data k = some v) :
    (k, v) ∈ data := by
  induction data with
  | nil => simp [lookupM] at h
  | cons kv rest ih =>
    obtain ⟨k1, v1⟩ := kv
    by_cases hk : k1 = k
    · subst hk
      have hv : v1 = v := by simpa [lookupM] using h
      subst hv
      exact List.mem_cons_self _ _
    · simp only [lookupM, if_neg hk] at h
      exact List.mem_cons_of_mem _ (ih h)

theorem lookupM_isSome_iff (data : M) (k : List Char) :
    (lookupM data k).isSome ↔ k ∈ data.map Prod.fst := by
  have h := lookupM_eq_none_iff data k
  rw [← Option.not_isSome_iff_eq_none] at h
  exact not_iff_not.mp h

/-! ### Rendering with no bound field is verbatim reassembly -/

theorem render_eq_verbatim (data : M) : ∀ ps : List templatePart,
    (∀ f ∈ partFields ps, lookupM data f = none) → render data ps = renderVerbatim ps := by
  intro ps
  induction ps with
  | nil => intro _; rfl
  | cons p ps ih =>
    intro h
    by_cases hf : p.field = []
    · have hrest : render data ps = renderVerbatim ps :=
        ih fun f hf2 => h f (by simp [partFields, hf, hf2])
      simp [render, renderVerbatim, renderPart, hf, hrest]
    · have hl : lookupM data p.field = none := h p.field (by simp [partFields, hf])
      have hrest : render data ps = renderVerbatim ps :=
        ih fun f hf2 => h f (by simp [partFields, hf2])
      simp [render, renderVerbatim, renderPart, hf, hl, hrest]

/-! ### Syntactic placeholder occurrences and the scan -/

/-- A `\x7b\x7bf\x7d\x7d` placeholder — two opening braces, one or more word
characters, two closing braces — occurs somewhere in `tpl` with field name
`f`. -/
def OccursPlaceholder (tpl f : List Char) : Prop :=
  f ≠ [] ∧ (∀ c ∈ f, isWordChar c) ∧
    ∃ pre post, tpl = pre ++ '\x7b' :: '\x7b' :: (f ++ '\x7d' :: '\x7d' :: post)

theorem fieldScan_sound : ∀ (fuel : Nat) (s : List Char), s.length ≤ fuel →
    ∀ w ∈ fieldScan fuel s, OccursPlaceholder s w := by
  intro fuel
  induction fuel with
  | zero =>
    intro s h w hw
    have hs : s = [] := List.eq_nil_of_length_eq_zero (Nat.le_zero.mp h)
    subst hs; simp [fieldScan] at hw
  | succ fuel ih =>
    intro s h w hw
    match s with
    | [] => simp [fieldScan] at hw
    | c :: cs =>
      simp only [fieldScan] at hw
      cases hm : matchPlaceholder (c :: cs) with
      | none =>
        simp only [hm] at hw
        obtain ⟨hne, hword, pre, post, hd⟩ :=
          ih cs (by simp only [List.length_cons] at h; omega) w hw
        exact ⟨hne, hword, c :: pre, post, by rw [hd]; rfl⟩
      | some p =>
        obtain ⟨w0, rest⟩ := p
        simp only [hm] at hw
        obtain ⟨hs, hne0, hword0⟩ := matchPlaceholder_eq_some hm
        rcases List.mem_cons.mp hw with rfl | hw2
        · exact ⟨hne0, hword0, [], rest, hs⟩
        · have hlen := matchPlaceholder_length hm
          obtain ⟨hne, hword, pre, post, hd⟩ :=
            ih rest (by simp only [List.length_cons] at h hlen; omega) w hw2
          refine ⟨hne, hword, '\x7b' :: '\x7b' :: (w0 ++ '\x7d' :: '\x7d' :: pre), post, ?_⟩
          rw [hs, hd]
          simp

theorem split_after_word : ∀ (w : List Char), (∀ c ∈ w, isWordChar c) →
    ∀ (u v r : List Char), u ++ '\x7b' :: '\x7b' :: v = w ++ '\x7d' :: '\x7d' :: r →
    ∃ u2, u = w ++ '\x7d' :: '\x7d' :: u2 ∧ r = u2 ++ '\x7b' :: '\x7b' :: v := by
  intro w
  induction w with
  | nil =>
    intro _ u v r h
    match u with
    | [] =>
      rw [List.nil_append] at h
      injection h with h1 _
      exact absurd h1 (by decide)
    | [a] =>
      simp only [List.cons_append, List.nil_append] at h
      injection h with h1 h2
      injection h2 with h3 _
      exact absurd h3 (by decide)
    | a :: b :: u2 =>
      simp only [List.cons_append] at h
      injection h with h1 h2
      injection h2 with h3 h4
      exact ⟨u2, by rw [h1, h3]; rfl, h4.symm⟩
  | cons x w ih =>
    intro hword u v r h
    match u with
    | [] =>
      rw [List.nil_append] at h
      injection h with h1 _
      exact absurd (h1 ▸ hword x (List.mem_cons_self _ _)) (by decide)
    | a :: u1 =>
      simp only [List.cons_append] at h
      injection h with h1 h2
      obtain ⟨u2, hu1, hr⟩ := ih (fun c hc => hword c (List.mem_cons_of_mem _ hc)) u1 v r h2
      exact ⟨u2, by rw [h1, hu1]; rfl, hr⟩

theorem word_block_eq : ∀ (f w post rest : List Char), (∀ c ∈ f, isWordChar c) →
    (∀ c ∈ w, isWordChar c) →
    f ++ '\x7d' :: '\x7d' :: post = w ++ '\x7d' :: '\x7d' :: rest →
    f = w ∧ post = rest := by
  intro f
  induction f with
  | nil =>
    intro w post rest _ hw h
    match w with
    | [] =>
      simp only [List.nil_append] at h
      injection h with _ h2
      injection h2 with _ h3
      exact ⟨rfl, h3⟩
    | x :: w2 =>
      simp only [List.nil_append, List.cons_append] at h
      injection h with h1 _
      exact absurd (h1 ▸ hw x (List.mem_cons_self _ _)) (by decide)
  | cons a f2 ih =>
    intro w post rest hf hw h
    match w with
    | [] =>
      simp only [List.nil_append, List.cons_append] at h
      injection h with h1 _
      exact absurd (h1.symm ▸ hf a (List.mem_cons_self _ _)) (by decide)
    | x :: w2 =>
      simp only [List.cons_append] at h
      injection h with h1 h2
      obtain ⟨hfw, hpr⟩ := ih w2 post rest (fun c hc => hf c (List.mem_cons_of_mem _ hc))
        (fun c hc => hw c (List.mem_cons_of_mem _ hc)) h2
      exact ⟨by rw [h1, hfw], hpr⟩

theorem fieldScan_complete : ∀ (fuel : Nat) (s f pre post : List Char), s.length ≤ fuel →
    f ≠ [] → (∀ c ∈ f, isWordChar c) →
    s = pre ++ '\x7b' :: '\x7b' :: (f ++ '\x7d' :: '\x7d' :: post) →
    f ∈ fieldScan fuel s := by
  intro fuel
  induction fuel with
  | zero =>
    intro s f pre post h hne hword hs
    have hnil : s = [] := List.eq_nil_of_length_eq_zero (Nat.le_zero.mp h)
    rw [hnil] at hs
    exact absurd hs.symm (by simp)
  | succ fuel ih =>
    intro s f pre post h hne hword hs
    match s with
    | [] => exact absurd hs.symm (by simp)
    | c :: cs =>
      simp only [fieldScan]
      cases hm : matchPlaceholder (c :: cs) with
      | some p =>
        obtain ⟨w0, rest⟩ := p
        simp only [hm]
        obtain ⟨hsm, hne0, hword0⟩ := matchPlaceholder_eq_some hm
        match pre with
        | [] =>
          rw [List.nil_append] at hs
          rw [hs] at hsm
          injection hsm with _ h2
          injection h2 with _ h3
          obtain ⟨hfw, -⟩ := word_block_eq f w0 post rest hword hword0 h3
          rw [hfw]
          exact List.mem_cons_self _ _
        | [a] =>
          simp only [List.cons_append, List.nil_append] at hs
          rw [hs] at hsm
          injection hsm with _ h2
          injection h2 with _ h3
          match w0, hne0, hword0, h3 with
          | y :: w1, _, hword0, h3 =>
            simp only [List.cons_append] at h3
            injection h3 with h4 _
            exact absurd (h4 ▸ hword0 y (List.mem_cons_self _ _)) (by decide)
        | a :: b :: pre2 =>
          simp only [List.cons_append] at hs
          rw [hs] at hsm
          injection hsm with _ h2
          injection h2 with _ h3
          obtain ⟨u2, -, hrest⟩ := split_after_word w0 hword0 pre2
            (f ++ '\x7d' :: '\x7d' :: post) rest h3
          have hlen := matchPlaceholder_length hm
          exact List.mem_cons_of_mem _ (ih rest f u2 post
            (by simp only [List.length_cons] at h hlen; omega) hne hword hrest)
      | none =>
        simp only [hm]
        match pre with
        | [] =>
          rw [List.nil_append] at hs
          rw [hs] at hm
          rw [matchPlaceholder_of_block hne hword] at hm
          exact absurd hm (by simp)
        | a :: pre1 =>
          simp only [List.cons_append] at hs
          injection hs with _ h2
          exact ih cs f pre1 post (by simp only [List.length_cons] at h; omega) hne hword h2

/-! ### Deduplication and sorting lemmas -/

theorem mem_dedupFirst : ∀ (l seen : List (List Char)) (x : List Char),
    x ∈ dedupFirst seen l ↔ x ∈ l ∧ x ∉ seen := by
  intro l
  induction l with
  | nil => intro seen x; simp [dedupFirst]
  | cons y ys ih =>
    intro seen x
    by_cases hy : y ∈ seen
    · simp only [dedupFirst, if_pos hy, ih, List.mem_cons]
      constructor
      · rintro ⟨hx, hns⟩; exact ⟨Or.inr hx, hns⟩
      · rintro ⟨hx | hx, hns⟩
        · subst hx; exact absurd hy hns
        · exact ⟨hx, hns⟩
    · simp only [dedupFirst, if_neg hy, List.mem_cons, ih]
      constructor
      · rintro (rfl | ⟨hx, hns⟩)
        · exact ⟨Or.inl rfl, hy⟩
        · exact ⟨Or.inr hx, fun hs => hns (Or.inr hs)⟩
      · rintro ⟨rfl | hx, hns⟩
        · exact Or.inl rfl
        · by_cases hxy : x = y
          · exact Or.inl hxy
          · exact Or.inr ⟨hx, by simp [List.mem_cons, hxy, hns]⟩

theorem nodup_dedupFirst : ∀ (l seen : List (List Char)), (dedupFirst seen l).Nodup := by
  intro l
  induction l with
  | nil => intro seen; simp [dedupFirst]
  | cons y ys ih =>
    intro seen
    by_cases hy : y ∈ seen
    · simpa [dedupFirst, if_pos hy] using ih seen
    · rw [dedupFirst, if_neg hy]
      refine List.nodup_cons.mpr ⟨fun hmem => ?_, ih (y :: seen)⟩
      exact ((mem_dedupFirst ys (y :: seen) y).mp hmem).2 (List.mem_cons_self _ _)

theorem mem_sortStrings (l : List (List Char)) (x : List Char) :
    x ∈ sortStrings l ↔ x ∈ l :=
  List.mem_insertionSort _

theorem sorted_sortStrings (l : List (List Char)) : (sortStrings l).Sorted (· ≤ ·) :=
  List.sorted_insertionSort _ l

theorem pairwise_lt_sortStrings (l : List (List Char)) (h : l.Nodup) :
    (sortStrings l).Pairwise (· < ·) :=
  (sorted_sortStrings l).lt_of_le ((List.perm_insertionSort _ l).nodup_iff.mpr h)

theorem mem_TemplateFields (tpl f : List Char) :
    f ∈ TemplateFields tpl ↔ f ∈ fieldScan tpl.length tpl := by
  unfold TemplateFields
  rw [mem_sortStrings, mem_dedupFirst]
  simp

theorem TemplateFields_pairwise (tpl : List Char) :
    (TemplateFields tpl).Pairwise (· < ·) :=
  pairwise_lt_sortStrings _ (nodup_dedupFirst _ [])

theorem mem_TemplateFields_iff_occurs (tpl f : List Char) :
    f ∈ TemplateFields tpl ↔ OccursPlaceholder tpl f := by
  rw [mem_TemplateFields]
  constructor
  · exact fun h => fieldScan_sound tpl.length tpl le_rfl f h
  · rintro ⟨hne, hword, pre, post, hd⟩
    exact fieldScan_complete tpl.length tpl f pre post le_rfl hne hword hd

/-! ### The validation result -/

theorem validate_none_iff (tpl : List Char) (data : M) :
    ValidateTemplate tpl data = none ↔
      ∀ f ∈ TemplateFields tpl, (lookupM data f).isSome := by
  constructor
  · intro h f hfm
    by_contra hns
    have hnone : lookupM data f = none := Option.not_isSome_iff_eq_none.mp hns
    have hfne : TemplateFields tpl ≠ [] := by
      intro he; rw [he] at hfm; simp at hfm
    have hmem : f ∈ (TemplateFields tpl).filter (fun g => lookupM data g = none) :=
      List.mem_filter.mpr ⟨hfm, by simp [hnone]⟩
    have hne : (TemplateFields tpl).filter (fun g => lookupM data g = none) ≠ [] := by
      intro he; rw [he] at hmem; simp at hmem
    simp [ValidateTemplate, hfne, hne] at h
  · intro h
    by_cases hf : TemplateFields tpl = []
    · simp [ValidateTemplate, hf]
    · have hm : (TemplateFields tpl).filter (fun g => lookupM data g = none) = [] := by
        refine List.eq_nil_iff_forall_not_mem.mpr fun g hg => ?_
        obtain ⟨hgf, hgd⟩ := List.mem_filter.mp hg
        have hnone : lookupM data g = none := by simpa using hgd
        have hsome := h g hgf
        rw [hnone] at hsome
        simp at hsome
      simp [ValidateTemplate, hf, hm]

/-! ### Brace-free strings -/

/-- No opening or closing brace character occurs in `l`. -/
def noBrace (l : List Char) : Prop := ∀ c ∈ l, c ≠ '\x7b' ∧ c ≠ '\x7d'

instance noBrace_decidable (l : List Char) : Decidable (noBrace l) :=
  inferInstanceAs (Decidable (∀ c ∈ l, c ≠ '\x7b' ∧ c ≠ '\x7d'))

theorem noBrace_append {a b : List Char} (ha : noBrace a) (hb : noBrace b) :
    noBrace (a ++ b) := by
  intro c hc
  rcases List.mem_append.mp hc with h | h
  · exact ha c h
  · exact hb c h

theorem noBrace_nil : noBrace [] := by intro c hc; simp at hc

/-! ### Helper facts for the claim theorems -/

theorem validate_some_spec {tpl : List Char} {data : M} {e : MissingFieldError}
    (h : ValidateTemplate tpl data = some e) :
    e.Template = tpl ∧
      e.Missing = (TemplateFields tpl).filter (fun g => lookupM data g = none) := by
  by_cases hf : TemplateFields tpl = []
  · simp [ValidateTemplate, hf] at h
  · by_cases hm : (TemplateFields tpl).filter (fun g => lookupM data g = none) = []
    · simp [ValidateTemplate, hf, hm] at h
    · simp only [ValidateTemplate, hf, hm, if_neg, if_false, Option.some.injEq] at h
      rw [← h]
      exact ⟨rfl, rfl⟩

theorem partFields_nil_fields : ∀ ps : List templatePart,
    partFields ps = [] → ∀ p ∈ ps, p.field = [] := by
  intro ps
  induction ps with
  | nil => intro _ p hp; simp at hp
  | cons q qs ih =>
    intro h p hp
    rw [partFields] at h
    obtain ⟨h1, h2⟩ := List.append_eq_nil.mp h
    rcases List.mem_cons.mp hp with rfl | hp2
    · by_cases hq : p.field = []
      · exact hq
      · rw [if_neg hq] at h1; simp at h1
    · exact ih h2 p hp2

theorem verbatim_noBrace : ∀ ps : List templatePart,
    (∀ p ∈ ps, noBrace p.literal) → (∀ p ∈ ps, p.field = []) →
    noBrace (renderVerbatim ps) := by
  intro ps
  induction ps with
  | nil => intro _ _; exact noBrace_nil
  | cons q qs ih =>
    intro hlit hfld
    rw [renderVerbatim, hfld q (List.mem_cons_self _ _), if_pos rfl]
    refine noBrace_append (noBrace_append (hlit q (List.mem_cons_self _ _)) noBrace_nil) ?_
    exact ih (fun p hp => hlit p (List.mem_cons_of_mem _ hp))
      (fun p hp => hfld p (List.mem_cons_of_mem _ hp))

theorem render_noBrace (data : M) : ∀ ps : List templatePart,
    (∀ p ∈ ps, noBrace p.literal) →
    (∀ p ∈ ps, p.field ≠ [] → ∃ v, lookupM data p.field = some v ∧ noBrace v) →
    noBrace (render data ps) := by
  intro ps
  induction ps with
  | nil => intro _ _; exact noBrace_nil
  | cons q qs ih =>
    intro hlit hval
    rw [render]
    refine noBrace_append ?_ (ih (fun p hp => hlit p (List.mem_cons_of_mem _ hp))
      (fun p hp => hval p (List.mem_cons_of_mem _ hp)))
    rw [renderPart]
    by_cases hq : q.field = []
    · rw [if_pos hq]
      exact noBrace_append (hlit q (List.mem_cons_self _ _)) noBrace_nil
    · obtain ⟨v, hv, hvb⟩ := hval q (List.mem_cons_self _ _) hq
      rw [if_neg hq, hv]
      exact noBrace_append (hlit q (List.mem_cons_self _ _)) hvb

/-- The apostrophe character of the C1 example strings. -/
def quoteChar : Char := Char.ofNat 39

theorem mem_partFields {ps : List templatePart} {p : templatePart} (hp : p ∈ ps)
    (hf : p.field ≠ []) : p.field ∈ partFields ps := by
  induction ps with
  | nil => simp at hp
  | cons q qs ih =>
    rw [partFields]
    rcases List.mem_cons.mp hp with rfl | hp2
    · rw [if_neg hf]; simp
    · exact List.mem_append.mpr (Or.inr (ih hp2))

/-! ## Claim theorems for the template engine -/

/-- C1: for every template string T and data map D, FormatTemplate returns
the parsed decomposition of T rendered segment by segment — each placeholder
whose name is a key of D replaced by the value in D, each placeholder whose
name is absent left verbatim including its double braces — and the operation
is total (never fails).  In particular formatting the template
"User <q>\x7b\x7bid\x7d\x7d<q> in \x7b\x7borg\x7d\x7d" (<q> the apostrophe) with data
mapping id to 123 yields "User <q>123<q> in \x7b\x7borg\x7d\x7d". -/
theorem formatTemplate_substitution :
    (∀ (tpl : List Char) (data : M),
      FormatTemplate tpl data = render data (parseTemplateParts tpl)) ∧
    FormatTemplate
        ("User ".data ++ quoteChar :: ("\x7b\x7bid\x7d\x7d".data ++
          quoteChar :: " in \x7b\x7borg\x7d\x7d".data))
        [("id".data, "123".data)] =
      "User ".data ++ quoteChar :: ("123".data ++
        quoteChar :: " in \x7b\x7borg\x7d\x7d".data) := by
  constructor
  · intro tpl data
    by_cases hd : data = ([] : M)
    · subst hd
      rw [FormatTemplate, if_pos rfl]
      rw [render_eq_verbatim [] _ fun f _ => rfl]
      exact (parseTemplateParts_reassemble tpl).symm
    · rw [FormatTemplate, if_neg hd]
  · decide

/-- C10: the segments of parseTemplateParts reassemble exactly to the
template — concatenating, in order, each literal followed by the verbatim
placeholder text of segments with a non-empty field yields the template
character for character — and consequently FormatTemplate leaves any
template unchanged under a data map, including the empty one, that shares no
key with the placeholder names of the template. -/
theorem parseTemplateParts_roundtrip :
    (∀ tpl : List Char, renderVerbatim (parseTemplateParts tpl) = tpl) ∧
    (∀ (tpl : List Char) (data : M),
      (∀ k ∈ data.map Prod.fst, k ∉ TemplateFields tpl) →
      FormatTemplate tpl data = tpl) := by
  constructor
  · exact parseTemplateParts_reassemble
  · intro tpl data h
    by_cases hd : data = ([] : M)
    · subst hd; rw [FormatTemplate, if_pos rfl]
    · rw [FormatTemplate, if_neg hd]
      have hnone : ∀ f ∈ partFields (parseTemplateParts tpl), lookupM data f = none := by
        intro f hf
        rw [lookupM_eq_none_iff]
        intro hk
        exact h f hk ((mem_TemplateFields tpl f).mpr (by rwa [partFields_parse] at hf))
      rw [render_eq_verbatim data _ hnone]
      exact parseTemplateParts_reassemble tpl

theorem parseTemplateParts_roundtrip_witness :
    FormatTemplate "a\x7b\x7bx\x7d\x7d".data [("y".data, "v".data)] =
      "a\x7b\x7bx\x7d\x7d".data :=
  parseTemplateParts_roundtrip.2 _ _ (by decide)

/-- C6: TemplateFields is exactly the deduplicated set of placeholder names
syntactically present in the template — a placeholder being two opening
braces, one or more word characters, two closing braces — in strictly
increasing (sorted, duplicate-free) lexicographic order; a doubled
placeholder is listed once and a template with no placeholders yields the
empty result. -/
theorem templateFields_sorted_dedup :
    (∀ tpl f : List Char, f ∈ TemplateFields tpl ↔ OccursPlaceholder tpl f) ∧
    (∀ tpl : List Char, (TemplateFields tpl).Pairwise (· < ·)) ∧
    TemplateFields "\x7b\x7ba\x7d\x7d\x7b\x7ba\x7d\x7d".data = ["a".data] ∧
    TemplateFields "no placeholders here".data = [] :=
  ⟨mem_TemplateFields_iff_occurs, TemplateFields_pairwise, by decide, by decide⟩

theorem templateFields_sorted_dedup_witness :
    OccursPlaceholder "x \x7b\x7bid\x7d\x7d".data "id".data :=
  (templateFields_sorted_dedup.1 _ _).mp (by decide)

/-- C5: ValidateTemplate succeeds exactly when every placeholder name of the
template is a key of the data map; on failure the single MissingFieldError
lists exactly the placeholder names absent from the data, each once, in
strictly increasing lexicographic order; validating a two-placeholder
template against the empty map fails listing exactly both names. -/
theorem validateTemplate_missing_fields :
    (∀ (tpl : List Char) (data : M),
      ValidateTemplate tpl data = none ↔
        ∀ f ∈ TemplateFields tpl, (lookupM data f).isSome) ∧
    (∀ (tpl : List Char) (data : M) (e : MissingFieldError),
      ValidateTemplate tpl data = some e →
        e.Template = tpl ∧
        (∀ f : List Char,
          f ∈ e.Missing ↔ OccursPlaceholder tpl f ∧ lookupM data f = none) ∧
        e.Missing.Pairwise (· < ·)) ∧
    ValidateTemplate "\x7b\x7ba\x7d\x7d \x7b\x7bb\x7d\x7d".data [] =
      some ⟨"\x7b\x7ba\x7d\x7d \x7b\x7bb\x7d\x7d".data, ["a".data, "b".data]⟩ := by
  refine ⟨validate_none_iff, ?_, by decide⟩
  intro tpl data e h
  obtain ⟨ht, hm⟩ := validate_some_spec h
  refine ⟨ht, ?_, ?_⟩
  · intro f
    rw [hm, List.mem_filter]
    simp only [decide_eq_true_eq]
    rw [mem_TemplateFields_iff_occurs]
  · rw [hm]
    exact (TemplateFields_pairwise tpl).filter _

theorem validateTemplate_missing_fields_witness :
    OccursPlaceholder "\x7b\x7ba\x7d\x7d \x7b\x7bb\x7d\x7d".data "a".data :=
  (((validateTemplate_missing_fields.2.1 "\x7b\x7ba\x7d\x7d \x7b\x7bb\x7d\x7d".data []
      ⟨"\x7b\x7ba\x7d\x7d \x7b\x7bb\x7d\x7d".data, ["a".data, "b".data]⟩
      (by decide)).2.1 "a".data).mp (by decide)).1

/-- C7 counterexample: the claim fails as stated.  For the template
consisting of the two characters closing-brace closing-brace, the empty data
map is complete (the template has no placeholder fields, and validation
succeeds), yet the formatted output contains the double closing brace
substring. -/
theorem roundtrip_claim_cex :
    TemplateFields ('\x7d' :: '\x7d' :: []) = [] ∧
    ValidateTemplate ('\x7d' :: '\x7d' :: []) [] = none ∧
    ∃ l r : List Char,
      FormatTemplate ('\x7d' :: '\x7d' :: []) [] = l ++ '\x7d' :: '\x7d' :: r :=
  ⟨by decide, by decide, [], [], by decide⟩

/-- C7 amended: for every template whose non-placeholder literal segments
contain no brace characters and every complete data map (one key per
placeholder name) whose values contain no brace characters, validation
succeeds and the formatted output contains no double opening brace and no
double closing brace substring. -/
theorem roundtrip_braceFree :
    ∀ (tpl : List Char) (data : M),
      (∀ p ∈ parseTemplateParts tpl, noBrace p.literal) →
      (∀ kv ∈ data, noBrace kv.2) →
      (∀ f ∈ TemplateFields tpl, (lookupM data f).isSome) →
      ValidateTemplate tpl data = none ∧
      (∀ l r : List Char, FormatTemplate tpl data ≠ l ++ '\x7b' :: '\x7b' :: r) ∧
      (∀ l r : List Char, FormatTemplate tpl data ≠ l ++ '\x7d' :: '\x7d' :: r) := by
  intro tpl data hlit hval hfull
  have hnb : noBrace (FormatTemplate tpl data) := by
    by_cases hd : data = ([] : M)
    · subst hd
      rw [FormatTemplate, if_pos rfl]
      have htf : TemplateFields tpl = [] := by
        refine List.eq_nil_iff_forall_not_mem.mpr fun f hf => ?_
        have h2 := hfull f hf
        simp [lookupM] at h2
      have hps : ∀ p ∈ parseTemplateParts tpl, p.field = [] := by
        apply partFields_nil_fields
        rw [partFields_parse]
        refine List.eq_nil_iff_forall_not_mem.mpr fun f hf => ?_
        rw [← mem_TemplateFields, htf] at hf
        simp at hf
      have h3 := verbatim_noBrace _ hlit hps
      rwa [parseTemplateParts_reassemble tpl] at h3
    · rw [FormatTemplate, if_neg hd]
      refine render_noBrace data _ hlit ?_
      intro p hp hpf
      have hmem : p.field ∈ TemplateFields tpl := by
        rw [mem_TemplateFields, ← partFields_parse]
        exact mem_partFields hp hpf
      obtain ⟨v, hv⟩ := Option.isSome_iff_exists.mp (hfull p.field hmem)
      exact ⟨v, hv, hval (p.field, v) (lookupM_eq_some_mem hv)⟩
  refine ⟨(validate_none_iff tpl data).mpr hfull, ?_, ?_⟩
  · intro l r he
    have hm : '\x7b' ∈ FormatTemplate tpl data := by rw [he]; simp
    exact (hnb _ hm).1 rfl
  · intro l r he
    have hm : '\x7d' ∈ FormatTemplate tpl data := by rw [he]; simp
    exact (hnb _ hm).2 rfl

theorem roundtrip_braceFree_witness :
    ValidateTemplate "\x7b\x7ba\x7d\x7d!".data [("a".data, "X".data)] = none ∧
    FormatTemplate "\x7b\x7ba\x7d\x7d!".data [("a".data, "X".data)] ≠
      [] ++ '\x7d' :: '\x7d' :: [] :=
  ⟨(roundtrip_braceFree _ _ (by decide) (by decide) (by decide)).1,
   (roundtrip_braceFree _ _ (by decide) (by decide) (by decide)).2.2 [] []⟩

/-! ## The error registry

The registry source file is not among the sources (only its tests and the
spec describe it), so the registry operations are modelled from the spec,
§4.4: a process-wide mapping from code to definition, insert-or-overwrite
registration that never fails, option-returning lookup, and sorted code
enumeration.  The mapping is embedded as an association list keyed by
`Error.Code`. -/

/-- Go struct `Error`: one registered error definition.  `ConnectCode` holds
the numeric value of the `connect.Code` enum (canceled = 1 through
unauthenticated = 16). -/
structure Error where
  Code : List Char
  MessageTpl : List Char
  ConnectCode : Nat
  Retryable : Bool
deriving DecidableEq

/-- Modelled from the spec: `register(def)` inserts or overwrites by code;
never fails (§4.4). -/
def Register : List Error → Error → List Error
  | [], e => [e]
  | x :: rest, e => if x.Code = e.Code then e :: rest else x :: Register rest e

/-- Modelled from the spec: `registerAll` applies `register` in order;
later entries win on duplicate codes (§4.4). -/
def RegisterAll (reg : List Error) (defs : List Error) : List Error :=
  defs.foldl Register reg

/-- Modelled from the spec: `lookup(code)` returns the definition or
not-found; never constructs a default (§4.4). -/
def Lookup : List Error → List Char → Option Error
  | [], _ => none
  | x :: rest, c => if x.Code = c then some x else Lookup rest c

/-- Modelled from the spec: `codes()` returns all registered codes in
sorted (lexicographic) order (§4.4). -/
def Codes (reg : List Error) : List (List Char) :=
  sortStrings (reg.map Error.Code)

/-- Modelled from the spec: the fixed set of 14 built-in general-purpose
codes with the status class and retryable flag of the table in §6 (code
strings and numeric status values from the repository README table; the
message templates are not specified by the spec and are placeholders no
claim depends on). -/
def builtinErrors : List Error :=
  [⟨"ERROR_NOT_FOUND".data, "Resource not found".data, 5, false⟩,
   ⟨"ERROR_INVALID_ARGUMENT".data, "Invalid argument".data, 3, false⟩,
   ⟨"ERROR_ALREADY_EXISTS".data, "Already exists".data, 6, false⟩,
   ⟨"ERROR_PERMISSION_DENIED".data, "Permission denied".data, 7, false⟩,
   ⟨"ERROR_UNAUTHENTICATED".data, "Unauthenticated".data, 16, false⟩,
   ⟨"ERROR_INTERNAL".data, "Internal error".data, 13, false⟩,
   ⟨"ERROR_UNAVAILABLE".data, "Service unavailable".data, 14, true⟩,
   ⟨"ERROR_DEADLINE_EXCEEDED".data, "Deadline exceeded".data, 4, true⟩,
   ⟨"ERROR_RESOURCE_EXHAUSTED".data, "Resource exhausted".data, 8, true⟩,
   ⟨"ERROR_FAILED_PRECONDITION".data, "Failed precondition".data, 9, false⟩,
   ⟨"ERROR_ABORTED".data, "Aborted".data, 10, true⟩,
   ⟨"ERROR_UNIMPLEMENTED".data, "Unimplemented".data, 12, false⟩,
   ⟨"ERROR_CANCELED".data, "Canceled".data, 1, false⟩,
   ⟨"ERROR_DATA_LOSS".data, "Data loss".data, 15, false⟩]

/-- The registry as it stands after process start: the built-in definitions
registered once, in order, into the empty registry. -/
def builtinRegistry : List Error := RegisterAll [] builtinErrors

/-! ## The Connect error model and the constructors of src/error.go -/

/-- The opaque `*connect.Error` sink: a status code, the message of the
wrapped error, and the key/value metadata headers. -/
structure ConnectError where
  code : Nat
  message : List Char
  meta : List (List Char × List Char)
deriving DecidableEq

/-- `connect.CodeInternal`. -/
def codeInternal : Nat := 13

/-- `connect.NewError(code, err)`: status code plus the message of the
wrapped error, no metadata yet. -/
def NewError (code : Nat) (msg : List Char) : ConnectError := ⟨code, msg, []⟩

/-- `http.Header.Set`: overwrite the binding for `k`, or append it. -/
def metaSet (m : List (List Char × List Char)) (k v : List Char) :
    List (List Char × List Char) :=
  match m with
  | [] => [(k, v)]
  | (k1, v1) :: rest => if k1 = k then (k, v) :: rest else (k1, v1) :: metaSet rest k v

/-- The default error-code header key of src/error.go. -/
def headerErrorCode : List Char := "x-error-code".data

/-- The default retryable header key of src/error.go. -/
def headerRetryable : List Char := "x-retryable".data

/-- src/error.go `setMeta`: attach the error-code and retryable headers.
The header keys are fixed at their defaults; the process-wide
`SetHeaderKeys` reconfiguration is outside the claims. -/
def setMeta (connectErr : ConnectError) (e : Error) : ConnectError :=
  let m1 := metaSet connectErr.meta headerErrorCode e.Code
  let m2 := metaSet m1 headerRetryable
    (if e.Retryable then "true".data else "false".data)
  ⟨connectErr.code, connectErr.message, m2⟩

/-- src/error.go `New`: look up the code, fall back to an internal error
naming the unknown code, otherwise format the registered template and
attach metadata. -/
def New (reg : List Error) (code : List Char) (data : M) : ConnectError :=
  match Lookup reg code with
  | none => NewError codeInternal ("unknown error code: ".data ++ code)
  | some e => setMeta (NewError e.ConnectCode (FormatTemplate e.MessageTpl data)) e

/-- src/error.go `NewWithMessage`: as `New` but formatting a caller-supplied
template. -/
def NewWithMessage (reg : List Error) (code : List Char) (customMsg : List Char)
    (data : M) : ConnectError :=
  match Lookup reg code with
  | none => NewError codeInternal ("unknown error code: ".data ++ code)
  | some e => setMeta (NewError e.ConnectCode (FormatTemplate customMsg data)) e

/-- src/error.go `FromCode`: a Connect error built directly from a status
code and message, bypassing the registry (and `setMeta`). -/
def FromCode (code : Nat) (msg : List Char) : ConnectError := NewError code msg

/-- src/error.go `Wrap`: the formatted template message prepended to the
wrapped error message (`fmt.Errorf` with two `%w` verbs renders
"first: second"); `errMsg` is the message of the wrapped error. -/
def Wrap (reg : List Error) (code : List Char) (errMsg : List Char) (data : M) :
    ConnectError :=
  match Lookup reg code with
  | none =>
    NewError codeInternal ("unknown error code ".data ++ code ++ ": ".data ++ errMsg)
  | some e =>
    setMeta (NewError e.ConnectCode
      (FormatTemplate e.MessageTpl data ++ ": ".data ++ errMsg)) e

/-- src/error.go `Newf`: `msg` stands for the already-rendered
`fmt.Sprintf(format, args...)` result (printf rendering is outside the
embedding; the unknown-code branch never consults it). -/
def Newf (reg : List Error) (code : List Char) (msg : List Char) : ConnectError :=
  match Lookup reg code with
  | none => NewError codeInternal ("unknown error code: ".data ++ code)
  | some e => setMeta (NewError e.ConnectCode msg) e

/-! ### Registry lemmas -/

theorem lookup_register_self : ∀ (reg : List Error) (d : Error),
    Lookup (Register reg d) d.Code = some d := by
  intro reg d
  induction reg with
  | nil => simp [Register, Lookup]
  | cons x rest ih =>
    by_cases hx : x.Code = d.Code
    · simp [Register, hx, Lookup]
    · simp [Register, hx, Lookup, ih]

theorem mem_keys_register_self (reg : List Error) (e : Error) :
    e.Code ∈ (Register reg e).map Error.Code := by
  induction reg with
  | nil => simp [Register]
  | cons x rest ih =>
    by_cases hx : x.Code = e.Code
    · simp [Register, hx]
    · simp only [Register, if_neg hx, List.map_cons, List.mem_cons]
      exact Or.inr ih

theorem mem_keys_register_mono {reg : List Error} {c : List Char}
    (h : c ∈ reg.map Error.Code) (e : Error) :
    c ∈ (Register reg e).map Error.Code := by
  induction reg with
  | nil => simp at h
  | cons x rest ih =>
    rcases List.mem_cons.mp h with hc | hc
    · by_cases hx : x.Code = e.Code
      · simp only [Register, if_pos hx, List.map_cons, List.mem_cons]
        exact Or.inl (hc.trans hx)
      · simp only [Register, if_neg hx, List.map_cons, List.mem_cons]
        exact Or.inl hc
    · by_cases hx : x.Code = e.Code
      · simp only [Register, if_pos hx, List.map_cons, List.mem_cons]
        exact Or.inr hc
      · simp only [Register, if_neg hx, List.map_cons, List.mem_cons]
        exact Or.inr (ih hc)

theorem mem_keys_registerAll : ∀ (defs reg : List Error) (c : List Char),
    c ∈ reg.map Error.Code → c ∈ (RegisterAll reg defs).map Error.Code := by
  intro defs
  induction defs with
  | nil => intro reg c h; exact h
  | cons d ds ih =>
    intro reg c h
    exact ih (Register reg d) c (mem_keys_register_mono h d)

theorem mem_defs_registerAll : ∀ (defs reg : List Error) (e : Error), e ∈ defs →
    e.Code ∈ (RegisterAll reg defs).map Error.Code := by
  intro defs
  induction defs with
  | nil => intro reg e h; simp at h
  | cons d ds ih =>
    intro reg e h
    rcases List.mem_cons.mp h with rfl | h2
    · exact mem_keys_registerAll ds (Register reg e) e.Code (mem_keys_register_self reg e)
    · exact ih (Register reg d) e h2

/-! ## Claim theorems for the registry and the constructors -/

/-- C2: registration never fails (it is total) and is last-write-wins:
after Register(d), Lookup(d.Code) returns d; registering twice under the
same code leaves the later definition, as in the concrete retryable
true-then-false example. -/
theorem register_lookup_lastWriteWins :
    (∀ (reg : List Error) (d : Error), Lookup (Register reg d) d.Code = some d) ∧
    (∀ (reg : List Error) (d1 d2 : Error), d2.Code = d1.Code →
      Lookup (Register (Register reg d1) d2) d1.Code = some d2) ∧
    (Lookup (Register (Register builtinRegistry ⟨"X".data, "m".data, 13, true⟩)
        ⟨"X".data, "m".data, 13, false⟩) "X".data).map Error.Retryable = some false := by
  refine ⟨lookup_register_self, ?_, by decide⟩
  intro reg d1 d2 h
  rw [← h]
  exact lookup_register_self (Register reg d1) d2

theorem register_lookup_lastWriteWins_witness :
    Lookup (Register (Register [] ⟨"C".data, "a".data, 13, true⟩)
        ⟨"C".data, "b".data, 5, false⟩) "C".data =
      some ⟨"C".data, "b".data, 5, false⟩ :=
  register_lookup_lastWriteWins.2.1 [] ⟨"C".data, "a".data, 13, true⟩
    ⟨"C".data, "b".data, 5, false⟩ rfl

/-- C3: when the code is not registered, New, Wrap and Newf are total (no
crash) and return a Connect error whose status is the internal code and
whose message carries the unrecognized code string as diagnostic text. -/
theorem constructors_unknown_code_internal :
    ∀ (reg : List Error) (c : List Char) (data : M) (errMsg fmtMsg : List Char),
      Lookup reg c = none →
      (New reg c data).code = codeInternal ∧
      (New reg c data).message = "unknown error code: ".data ++ c ∧
      (Wrap reg c errMsg data).code = codeInternal ∧
      (Wrap reg c errMsg data).message =
        "unknown error code ".data ++ c ++ ": ".data ++ errMsg ∧
      (Newf reg c fmtMsg).code = codeInternal ∧
      (Newf reg c fmtMsg).message = "unknown error code: ".data ++ c := by
  intro reg c data errMsg fmtMsg h
  simp [New, Wrap, Newf, h, NewError]

theorem constructors_unknown_code_internal_witness :
    (New builtinRegistry "ERROR_NOPE".data []).code = codeInternal ∧
    (Wrap builtinRegistry "ERROR_NOPE".data "boom".data []).message =
      "unknown error code ".data ++ "ERROR_NOPE".data ++ ": ".data ++ "boom".data :=
  ⟨(constructors_unknown_code_internal builtinRegistry "ERROR_NOPE".data
      [] "boom".data "m".data (by decide)).1,
   (constructors_unknown_code_internal builtinRegistry "ERROR_NOPE".data
      [] "boom".data "m".data (by decide)).2.2.2.1⟩

/-- C4 counterexample: not every constructed error carries the metadata
headers.  FromCode attaches no metadata at all, and the unknown-code
fallback of New attaches none either, so the error-code and retryable
headers are absent from these constructed errors. -/
theorem metadata_headers_cex :
    lookupM (FromCode 13 "boom".data).meta "x-error-code".data = none ∧
    lookupM (FromCode 13 "boom".data).meta "x-retryable".data = none ∧
    (FromCode 13 "boom".data).meta = [] ∧
    (New builtinRegistry "ERROR_NOPE".data []).meta = [] := by decide

/-- C4 amended: every error constructed through the registry path — New,
NewWithMessage, Wrap and Newf applied to a registered code — carries the
error-code header (default key x-error-code) set to the Code of the
registered definition and the retryable header (default key x-retryable)
set to "true" when the definition is retryable and "false" otherwise;
FromCode and the unknown-code fallbacks attach no headers (see the
counterexample). -/
theorem metadata_headers_registered :
    ∀ (reg : List Error) (c : List Char) (data : M)
      (errMsg fmtMsg customMsg : List Char) (e : Error),
      Lookup reg c = some e →
      lookupM (New reg c data).meta headerErrorCode = some e.Code ∧
      lookupM (New reg c data).meta headerRetryable =
        some (if e.Retryable then "true".data else "false".data) ∧
      lookupM (NewWithMessage reg c customMsg data).meta headerErrorCode = some e.Code ∧
      lookupM (NewWithMessage reg c customMsg data).meta headerRetryable =
        some (if e.Retryable then "true".data else "false".data) ∧
      lookupM (Wrap reg c errMsg data).meta headerErrorCode = some e.Code ∧
      lookupM (Wrap reg c errMsg data).meta headerRetryable =
        some (if e.Retryable then "true".data else "false".data) ∧
      lookupM (Newf reg c fmtMsg).meta headerErrorCode = some e.Code ∧
      lookupM (Newf reg c fmtMsg).meta headerRetryable =
        some (if e.Retryable then "true".data else "false".data) := by
  intro reg c data errMsg fmtMsg customMsg e h
  have hk : headerErrorCode ≠ headerRetryable := by decide
  simp [New, NewWithMessage, Wrap, Newf, h, setMeta, NewError, metaSet, lookupM, hk]

theorem metadata_headers_registered_witness :
    lookupM (New builtinRegistry "ERROR_NOT_FOUND".data []).meta headerErrorCode =
      some "ERROR_NOT_FOUND".data ∧
    lookupM (New builtinRegistry "ERROR_NOT_FOUND".data []).meta headerRetryable =
      some "false".data :=
  ⟨(metadata_headers_registered builtinRegistry "ERROR_NOT_FOUND".data []
      "w".data "f".data "cm".data
      ⟨"ERROR_NOT_FOUND".data, "Resource not found".data, 5, false⟩ (by decide)).1,
   (metadata_headers_registered builtinRegistry "ERROR_NOT_FOUND".data []
      "w".data "f".data "cm".data
      ⟨"ERROR_NOT_FOUND".data, "Resource not found".data, 5, false⟩ (by decide)).2.1⟩

/-- C8: after any sequence of registrations on top of the built-in registry,
Codes() is sorted lexicographically and contains the code of every
definition ever registered, including all 14 built-in codes. -/
theorem codes_sorted_complete :
    ∀ defs : List Error,
      (Codes (RegisterAll builtinRegistry defs)).Sorted (· ≤ ·) ∧
      (∀ e ∈ defs, e.Code ∈ Codes (RegisterAll builtinRegistry defs)) ∧
      (∀ b ∈ builtinErrors, b.Code ∈ Codes (RegisterAll builtinRegistry defs)) ∧
      builtinErrors.length = 14 := by
  intro defs
  refine ⟨sorted_sortStrings _, ?_, ?_, by decide⟩
  · intro e he
    exact (mem_sortStrings _ _).mpr (mem_defs_registerAll defs builtinRegistry e he)
  · intro b hb
    refine (mem_sortStrings _ _).mpr (mem_keys_registerAll defs builtinRegistry b.Code ?_)
    exact mem_defs_registerAll builtinErrors [] b hb

theorem codes_sorted_complete_witness :
    "ERROR_ZEBRA".data ∈
      Codes (RegisterAll builtinRegistry [⟨"ERROR_ZEBRA".data, "z".data, 13, false⟩]) ∧
    "ERROR_NOT_FOUND".data ∈
      Codes (RegisterAll builtinRegistry [⟨"ERROR_ZEBRA".data, "z".data, 13, false⟩]) :=
  ⟨(codes_sorted_complete _).2.1 _ (List.mem_singleton.mpr rfl),
   (codes_sorted_complete _).2.2.1
     ⟨"ERROR_NOT_FOUND".data, "Resource not found".data, 5, false⟩ (by decide)⟩

/-! ## The protobuf wire decoder

The generator main file is not among the sources (only its tests are), so
`parseErrorDef` is modelled from the spec, §4.1: varint field tags with
tag = fieldNumber * 8 + wireType, wire type 0 = raw varint and
2 = length-delimited; field 1 is the code string, 2 the message string,
3 the status-code varint, 4 the retryable varint; unknown field numbers are
skipped; truncated input — a varint running past the buffer end, or a
declared length-delimited size exceeding the remaining bytes — is a decode
failure (`none`), never a crash.  Bytes are naturals below 256. -/

/-- Little-endian base-128 varint read: the value and the remaining bytes,
or `none` when the buffer ends inside the varint. -/
def readVarint : List Nat → Option (Nat × List Nat)
  | [] => none
  | b :: rest =>
    if b < 128 then some (b, rest)
    else
      match readVarint rest with
      | some (v, r) => some (b % 128 + 128 * v, r)
      | none => none

/-- The decoded option message of the generator: code, message, status
code, retryable. -/
structure ErrorDef where
  Code : List Char
  Message : List Char
  ConnectCode : Nat
  Retryable : Bool
deriving DecidableEq

/-- Length-delimited payload bytes read as a string. -/
def bytesToChars (bs : List Nat) : List Char := bs.map Char.ofNat

/-- Update for one wire-type-0 field: field 3 is the status code, field 4
the retryable flag, anything else is skipped. -/
def applyVarint (acc : ErrorDef) (fieldNum v : Nat) : ErrorDef :=
  if fieldNum = 3 then ⟨acc.Code, acc.Message, v, acc.Retryable⟩
  else if fieldNum = 4 then ⟨acc.Code, acc.Message, acc.ConnectCode, v != 0⟩
  else acc

/-- Update for one wire-type-2 field: field 1 is the code, field 2 the
message, anything else is skipped. -/
def applyLen (acc : ErrorDef) (fieldNum : Nat) (payload : List Nat) : ErrorDef :=
  if fieldNum = 1 then ⟨bytesToChars payload, acc.Message, acc.ConnectCode, acc.Retryable⟩
  else if fieldNum = 2 then ⟨acc.Code, bytesToChars payload, acc.ConnectCode, acc.Retryable⟩
  else acc

/-- The decode loop: read a tag varint, dispatch on the wire type, read the
field body, recurse on the remainder.  `fuel ≥ data.length` makes the
recursion structural; every loop iteration consumes at least one byte. -/
def parseFields (fuel : Nat) (acc : ErrorDef) (data : List Nat) : Option ErrorDef :=
  match fuel, data with
  | _, [] => some acc
  | 0, _ => none
  | fuel + 1, b :: bs =>
    match readVarint (b :: bs) with
    | none => none
    | some (tag, rest) =>
      if tag % 8 = 0 then
        match readVarint rest with
        | none => none
        | some (v, rest2) => parseFields fuel (applyVarint acc (tag / 8) v) rest2
      else if tag % 8 = 2 then
        match readVarint rest with
        | none => none
        | some (len, rest2) =>
          if len ≤ rest2.length then
            parseFields fuel (applyLen acc (tag / 8) (rest2.take len)) (rest2.drop len)
          else none
      else none

/-- Modelled from the spec: the wire decoder `parseErrorDef` of the
generator (§4.1); returns the decoded definition or a decode failure. -/
def parseErrorDef (data : List Nat) : Option ErrorDef :=
  parseFields data.length ⟨[], [], 0, false⟩ data

/-- Little-endian base-128 varint write (fuel-passed; `fuel ≥ n` suffices
and `encodeVarint` passes `n` itself). -/
def encodeVarintAux : Nat → Nat → List Nat
  | 0, n => [n % 128]
  | f + 1, n => if n < 128 then [n] else (n % 128 + 128) :: encodeVarintAux f (n / 128)

def encodeVarint (n : Nat) : List Nat := encodeVarintAux n n

/-- One well-formed encoded field of the option message. -/
inductive WireField where
  | varintF (fieldNum : Nat) (value : Nat)
  | lenF (fieldNum : Nat) (payload : List Nat)

def encodeField : WireField → List Nat
  | .varintF n v => encodeVarint (n * 8) ++ encodeVarint v
  | .lenF n p => encodeVarint (n * 8 + 2) ++ encodeVarint p.length ++ p

def applyField (acc : ErrorDef) : WireField → ErrorDef
  | .varintF n v => applyVarint acc n v
  | .lenF n p => applyLen acc n p

/-- A sequence of well-formed encoded fields. -/
def encodeMsg (fs : List WireField) : List Nat :=
  fs.foldr (fun f acc => encodeField f ++ acc) []

/-! ### Wire lemmas -/

theorem readVarint_shrink : ∀ {l : List Nat} {v : Nat} {r : List Nat},
    readVarint l = some (v, r) → r.length < l.length := by
  intro l
  induction l with
  | nil => intro v r h; simp [readVarint] at h
  | cons b bs ih =>
    intro v r h
    simp only [readVarint] at h
    by_cases hb : b < 128
    · rw [if_pos hb] at h
      have hr : bs = r := congrArg Prod.snd (Option.some.inj h)
      rw [← hr]
      simp
    · rw [if_neg hb] at h
      cases hr : readVarint bs with
      | none => rw [hr] at h; simp at h
      | some p =>
        obtain ⟨v2, r2⟩ := p
        rw [hr] at h
        have h2 : r2 = r := congrArg Prod.snd (Option.some.inj h)
        have h3 := ih hr
        rw [h2] at h3
        simp only [List.length_cons]
        omega

theorem readVarint_encodeAux : ∀ (f n : Nat) (t : List Nat), n ≤ f →
    readVarint (encodeVarintAux f n ++ t) = some (n, t) := by
  intro f
  induction f with
  | zero =>
    intro n t h
    have hn : n = 0 := Nat.le_zero.mp h
    subst hn
    simp [encodeVarintAux, readVarint]
  | succ f ih =>
    intro n t h
    rw [encodeVarintAux]
    by_cases hn : n < 128
    · rw [if_pos hn]
      simp [readVarint, hn]
    · rw [if_neg hn]
      simp only [List.cons_append, readVarint]
      have hb : ¬(n % 128 + 128 < 128) := by omega
      rw [if_neg hb]
      simp only [List.append_eq]
      have hdiv : n / 128 ≤ f := by
        have hlt : n / 128 < n := Nat.div_lt_self (by omega) (by omega)
        omega
      rw [ih (n / 128) t hdiv]
      simp only [Option.some.injEq, Prod.mk.injEq]
      exact ⟨by omega, trivial⟩

theorem encodeVarintAux_cons (f n : Nat) : ∃ b bs, encodeVarintAux f n = b :: bs := by
  cases f with
  | zero => exact ⟨n % 128, [], rfl⟩
  | succ f =>
    rw [encodeVarintAux]
    by_cases hn : n < 128
    · rw [if_pos hn]; exact ⟨n, [], rfl⟩
    · rw [if_neg hn]; exact ⟨n % 128 + 128, encodeVarintAux f (n / 128), rfl⟩

theorem parseFields_fuel : ∀ (f1 f2 : Nat) (acc : ErrorDef) (data : List Nat),
    data.length ≤ f1 → data.length ≤ f2 →
    parseFields f1 acc data = parseFields f2 acc data := by
  intro f1
  induction f1 with
  | zero =>
    intro f2 acc data h1 h2
    have hd : data = [] := List.eq_nil_of_length_eq_zero (Nat.le_zero.mp h1)
    subst hd
    cases f2 <;> rfl
  | succ f1 ih =>
    intro f2 acc data h1 h2
    match data with
    | [] => cases f2 <;> rfl
    | b :: bs =>
      cases f2 with
      | zero => simp at h2
      | succ g =>
        simp only [parseFields]
        cases hrv : readVarint (b :: bs) with
        | none => simp [hrv]
        | some p =>
          obtain ⟨tag, rest⟩ := p
          have hsh := readVarint_shrink hrv
          simp only [hrv]
          by_cases h0 : tag % 8 = 0
          · rw [if_pos h0, if_pos h0]
            cases hrv2 : readVarint rest with
            | none => simp [hrv2]
            | some p2 =>
              obtain ⟨v, rest2⟩ := p2
              have hsh2 := readVarint_shrink hrv2
              simp only [hrv2]
              exact ih g _ rest2
                (by simp only [List.length_cons] at h1 hsh; omega)
                (by simp only [List.length_cons] at h2 hsh; omega)
          · rw [if_neg h0, if_neg h0]
            by_cases h2t : tag % 8 = 2
            · rw [if_pos h2t, if_pos h2t]
              cases hrv2 : readVarint rest with
              | none => simp [hrv2]
              | some p2 =>
                obtain ⟨len, rest2⟩ := p2
                have hsh2 := readVarint_shrink hrv2
                simp only [hrv2]
                by_cases hl : len ≤ rest2.length
                · rw [if_pos hl, if_pos hl]
                  refine ih g _ (rest2.drop len) ?_ ?_
                  · simp only [List.length_drop]
                    simp only [List.length_cons] at h1 hsh
                    omega
                  · simp only [List.length_drop]
                    simp only [List.length_cons] at h2 hsh
                    omega
                · rw [if_neg hl, if_neg hl]
            · rw [if_neg h2t, if_neg h2t]

theorem parseFields_step (fl : WireField) (rest : List Nat) (acc : ErrorDef) (fuel : Nat)
    (h : (encodeField fl ++ rest).length ≤ fuel) :
    parseFields fuel acc (encodeField fl ++ rest) =
      parseFields rest.length (applyField acc fl) rest := by
  match fl with
  | .varintF n v =>
    obtain ⟨b, bs, hb⟩ := encodeVarintAux_cons (n * 8) (n * 8)
    have hdata : encodeField (.varintF n v) ++ rest
        = b :: (bs ++ (encodeVarint v ++ rest)) := by
      simp only [encodeField, encodeVarint, hb]
      simp
    rw [hdata] at h ⊢
    cases fuel with
    | zero => simp at h
    | succ g =>
      simp only [parseFields]
      have hrv : readVarint (b :: (bs ++ (encodeVarint v ++ rest)))
          = some (n * 8, encodeVarint v ++ rest) := by
        have h2 := readVarint_encodeAux (n * 8) (n * 8) (encodeVarint v ++ rest) le_rfl
        rw [encodeVarint, hb] at h2
        simpa using h2
      simp only [hrv]
      have h0 : n * 8 % 8 = 0 := by omega
      rw [if_pos h0]
      have hrv2 : readVarint (encodeVarint v ++ rest) = some (v, rest) :=
        readVarint_encodeAux v v rest le_rfl
      simp only [hrv2]
      have hdiv : n * 8 / 8 = n := by omega
      rw [hdiv]
      refine parseFields_fuel g rest.length _ rest ?_ le_rfl
      have hrl := readVarint_shrink hrv2
      simp only [List.length_cons, List.length_append] at h hrl ⊢
      omega
  | .lenF n p =>
    obtain ⟨b, bs, hb⟩ := encodeVarintAux_cons (n * 8 + 2) (n * 8 + 2)
    have hdata : encodeField (.lenF n p) ++ rest
        = b :: (bs ++ (encodeVarint p.length ++ (p ++ rest))) := by
      simp only [encodeField, encodeVarint, hb]
      simp
    rw [hdata] at h ⊢
    cases fuel with
    | zero => simp at h
    | succ g =>
      simp only [parseFields]
      have hrv : readVarint (b :: (bs ++ (encodeVarint p.length ++ (p ++ rest))))
          = some (n * 8 + 2, encodeVarint p.length ++ (p ++ rest)) := by
        have h2 := readVarint_encodeAux (n * 8 + 2) (n * 8 + 2)
          (encodeVarint p.length ++ (p ++ rest)) le_rfl
        rw [encodeVarint, hb] at h2
        simpa using h2
      simp only [hrv]
      have h0 : ¬((n * 8 + 2) % 8 = 0) := by omega
      rw [if_neg h0]
      have h2t : (n * 8 + 2) % 8 = 2 := by omega
      rw [if_pos h2t]
      have hrv2 : readVarint (encodeVarint p.length ++ (p ++ rest))
          = some (p.length, p ++ rest) :=
        readVarint_encodeAux p.length p.length (p ++ rest) le_rfl
      simp only [hrv2]
      have hl : p.length ≤ (p ++ rest).length := by simp
      rw [if_pos hl]
      have hdiv : (n * 8 + 2) / 8 = n := by omega
      rw [hdiv, List.take_left, List.drop_left]
      refine parseFields_fuel g rest.length _ rest ?_ le_rfl
      simp only [List.length_cons, List.length_append] at h ⊢
      omega

theorem parseFields_msg_truncated : ∀ (pre : List WireField) (acc : ErrorDef)
    (n len : Nat) (payload : List Nat) (fuel : Nat),
    payload.length < len →
    (encodeMsg pre ++ (encodeVarint (n * 8 + 2) ++ (encodeVarint len ++ payload))).length
      ≤ fuel →
    parseFields fuel acc
      (encodeMsg pre ++ (encodeVarint (n * 8 + 2) ++ (encodeVarint len ++ payload)))
      = none := by
  intro pre
  induction pre with
  | nil =>
    intro acc n len payload fuel hlen hfuel
    simp only [encodeMsg, List.foldr_nil, List.nil_append] at hfuel ⊢
    obtain ⟨b, bs, hb⟩ := encodeVarintAux_cons (n * 8 + 2) (n * 8 + 2)
    have hdata : encodeVarint (n * 8 + 2) ++ (encodeVarint len ++ payload)
        = b :: (bs ++ (encodeVarint len ++ payload)) := by
      rw [encodeVarint, hb]
      simp
    rw [hdata] at hfuel ⊢
    cases fuel with
    | zero => simp at hfuel
    | succ g =>
      simp only [parseFields]
      have hrv : readVarint (b :: (bs ++ (encodeVarint len ++ payload)))
          = some (n * 8 + 2, encodeVarint len ++ payload) := by
        have h2 := readVarint_encodeAux (n * 8 + 2) (n * 8 + 2)
          (encodeVarint len ++ payload) le_rfl
        rw [encodeVarint, hb] at h2
        simpa using h2
      simp only [hrv]
      have h0 : ¬((n * 8 + 2) % 8 = 0) := by omega
      rw [if_neg h0]
      have h2t : (n * 8 + 2) % 8 = 2 := by omega
      rw [if_pos h2t]
      have hrv2 : readVarint (encodeVarint len ++ payload) = some (len, payload) :=
        readVarint_encodeAux len len payload le_rfl
      simp only [hrv2]
      rw [if_neg (by omega)]
  | cons fl pre ih =>
    intro acc n len payload fuel hlen hfuel
    have hmsg : encodeMsg (fl :: pre) ++ (encodeVarint (n * 8 + 2) ++ (encodeVarint len ++ payload))
        = encodeField fl ++ (encodeMsg pre ++ (encodeVarint (n * 8 + 2) ++ (encodeVarint len ++ payload))) := by
      simp only [encodeMsg, List.foldr_cons]
      simp
    rw [hmsg] at hfuel ⊢
    rw [parseFields_step fl _ acc fuel hfuel]
    exact ih _ n len payload _ hlen le_rfl

/-! ## Claim theorem for the wire decoder -/

/-- C9: decoding the protobuf-encoded option bytes for code ERR_TEST,
message msg, status code 5, retryable true (field 1 length-delimited, field
2 length-delimited, field 3 varint, field 4 varint) succeeds and yields
exactly those four field values; and any input consisting of well-formed
fields followed by a length-delimited field whose declared size exceeds the
remaining bytes is a decode failure (`none`), not a crash. -/
theorem parseErrorDef_spec :
    parseErrorDef [0x0a, 0x08, 69, 82, 82, 95, 84, 69, 83, 84,
        0x12, 0x03, 109, 115, 103, 0x18, 0x05, 0x20, 0x01] =
      some ⟨"ERR_TEST".data, "msg".data, 5, true⟩ ∧
    (∀ (pre : List WireField) (n len : Nat) (payload : List Nat),
      payload.length < len →
      parseErrorDef (encodeMsg pre ++
        (encodeVarint (n * 8 + 2) ++ (encodeVarint len ++ payload))) = none) := by
  constructor
  · decide
  · intro pre n len payload hlen
    rw [parseErrorDef]
    exact parseFields_msg_truncated pre _ n len payload _ hlen le_rfl

theorem parseErrorDef_spec_witness :
    parseErrorDef (encodeMsg [] ++
      (encodeVarint (1 * 8 + 2) ++ (encodeVarint 5 ++ [65, 66]))) = none :=
  parseErrorDef_spec.2 [] 1 5 [65, 66] (by decide)

end ConnectGoErrors
